import Mathlib

/-!
Verification of the GoatsVGravity embedding ingestion pipeline
(`src/ingestion.ipynb`) against its natural-language specification.

Shallow embedding choices:
* a file's decoded contents are a `List Char`; a text line is a `List Char`;
* `readlines` models Python's `f.readlines()` on the decoded contents:
  it splits after every newline character, keeping the newline in each line,
  and the last line keeps a newline only when the contents end with one;
* an embedding vector is a `List ℚ` (each IEEE-754 double stored by the
  service, and preserved bit-exactly by pickle, is a rational number);
* the external embedding service is a deterministic oracle
  `svc : Nat → List Char → Nat → Option (List ℚ)` giving the outcome of the
  j-th submission of the record at position i with the given text
  (`none` = any failure: network error, service error, malformed response);
* the unbounded `while not done` retry loop is run with explicit fuel;
  exhausting the fuel models nontermination, not an error path of the code.
-/

namespace GoatsVGravity

abbrev Vec := List ℚ

/-- A `(source_label, text)` pair: one row of the combined DataFrame before
embeddings are attached (the `type` and `text` columns). -/
structure Record where
  source_label : String
  text : List Char
  deriving DecidableEq, Repr

/-- One row of the final DataFrame: `type`, `text`, `openaiEmbeddings`. -/
structure Row where
  source_label : String
  text : List Char
  openaiEmbeddings : Vec
  deriving DecidableEq, Repr

/-- Python `f.readlines()` on decoded file contents: split after every
newline, keeping the newline character at the end of each line. -/
def readlines : List Char → List (List Char)
  | [] => []
  | c :: cs =>
    if c = '\n' then ['\n'] :: readlines cs
    else
      match readlines cs with
      | [] => [[c]]
      | l :: ls => (c :: l) :: ls

/-- `read_file` from the notebook: open the file and return its lines. -/
def read_file (contents : List Char) : List (List Char) :=
  readlines contents

/-- A loaded document: the per-file DataFrame `pd.DataFrame({'type': label,
'text': lines})`, kept as the label together with the line list. -/
def loadDocs (files : List (String × List Char)) : List (String × List (List Char)) :=
  files.map (fun f => (f.1, read_file f.2))

/-- `pd.concat([...]).reset_index(drop=True)`: concatenate the per-source
line lists in the order supplied, tagging each line with its source label. -/
def assemble (docs : List (String × List (List Char))) : List Record :=
  (docs.map (fun d => d.2.map (fun t => Record.mk d.1 t))).flatten

/-- Index in the assembled sequence of the first record of document `p`. -/
def docOffset (docs : List (String × List (List Char))) (p : Nat) : Nat :=
  (((docs.take p).map (fun d => d.2.length))).sum

/-- The per-record retry loop (`while not done`), run on the oracle of one
record with explicit fuel, starting from attempt index `j`.  Returns
`(result, calls, sleptSeconds)` where `result` carries the returned vector
and the index of the successful attempt; every failed attempt performs
`time.sleep(5)`. -/
def retryT (svc1 : Nat → Option Vec) : Nat → Nat → (Option (Vec × Nat)) × Nat × Nat
  | 0, _ => (none, 0, 0)
  | fuel + 1, j =>
    match svc1 j with
    | some v => (some (v, j), 1, 0)
    | none =>
      let r := retryT svc1 fuel (j + 1)
      (r.1, r.2.1 + 1, r.2.2 + 5)

/-- The body of `get_embeddings`: process the remaining texts starting at
position `i` with the accumulated `embedding_list` in `acc`; also count the
total service calls and the total seconds slept. -/
def get_embeddings_go (svc : Nat → List Char → Nat → Option Vec) (fuel : Nat) :
    Nat → List Vec → List (List Char) → (Option (List Vec)) × Nat × Nat
  | _, acc, [] => (some acc, 0, 0)
  | i, acc, t :: ts =>
    match retryT (svc i t) fuel 0 with
    | (none, c, s) => (none, c, s)
    | (some (v, _), c, s) =>
      let rest := get_embeddings_go svc fuel (i + 1) (acc ++ [v]) ts
      (rest.1, c + rest.2.1, s + rest.2.2)

/-- `get_embeddings(text_list)`: one record at a time in order, starting
with an empty `embedding_list`. -/
def get_embeddings (svc : Nat → List Char → Nat → Option Vec) (fuel : Nat)
    (texts : List (List Char)) : (Option (List Vec)) × Nat × Nat :=
  get_embeddings_go svc fuel 0 [] texts

/-- `df_combined['openaiEmbeddings'] = embedding_results`: pandas refuses a
column whose length differs from the index (ValueError), otherwise attaches
the vectors positionally. -/
def buildDataset (recs : List Record) (embs : List Vec) : Option (List Row) :=
  if recs.length = embs.length then
    some (List.zipWith (fun r v => Row.mk r.source_label r.text v) recs embs)
  else
    none

/-- The embedding results of one pipeline run (first component of
`get_embeddings` on the combined `text` column). -/
def pipelineEmbeds (svc : Nat → List Char → Nat → Option Vec) (fuel : Nat)
    (files : List (String × List Char)) : Option (List Vec) :=
  (get_embeddings svc fuel ((assemble (loadDocs files)).map Record.text)).1

/-- The final dataset of one pipeline run: load, assemble, embed, merge. -/
def pipelineDataset (svc : Nat → List Char → Nat → Option Vec) (fuel : Nat)
    (files : List (String × List Char)) : Option (List Row) :=
  (pipelineEmbeds svc fuel files).bind
    (fun embs => buildDataset (assemble (loadDocs files)) embs)

/-- The configuration state visible to the pre-flight check: whether
`load_dotenv` succeeded, and the set of names present in `os.environ`. -/
structure Config where
  dotenv_loaded : Bool
  env : List String
  deriving DecidableEq, Repr

/-- `envVars = ['OPENAI_API_KEY']`. -/
def envVars : List String := ["OPENAI_API_KEY"]

/-- The loop collecting the members of `envVars` absent from `os.environ`. -/
def missingVars (cfg : Config) : List String :=
  envVars.filter (fun v => ¬ v ∈ cfg.env)

/-- The pre-flight check of the notebook: `load_dotenv` must succeed and no
required environment variable may be missing, else an exception is raised. -/
def checkConfig (cfg : Config) : Except String Unit :=
  if cfg.dotenv_loaded = false then
    Except.error "Could not load .env file"
  else if missingVars cfg ≠ [] then
    Except.error "These environment variables are missing"
  else
    Except.ok ()

/-- One full run with its configuration: the result (`Except` for the fatal
errors; the inner `none` models a retry loop that never returns within the
fuel) together with the number of embedding-service calls performed. -/
def runPipeline (cfg : Config) (svc : Nat → List Char → Nat → Option Vec)
    (fuel : Nat) (files : List (String × List Char)) :
    Except String (Option (List Row)) × Nat :=
  match checkConfig cfg with
  | Except.error e => (Except.error e, 0)
  | Except.ok _ =>
    let recs := assemble (loadDocs files)
    let r := get_embeddings svc fuel (recs.map Record.text)
    match r.1 with
    | none => (Except.ok none, r.2.1)
    | some embs =>
      match buildDataset recs embs with
      | none => (Except.error "Length of values does not match length of index", r.2.1)
      | some ds => (Except.ok (some ds), r.2.1)

/-- Modelled from the spec: one cell of the binary pickle container.  The
container format itself and the reader (`pd.read_pickle`, used by the
downstream notebook) are not under `src/` — only the `to_pickle` call site
is — so the container is modelled from §4.5: a single binary file holding
the three logical columns, every embedding value kept at full precision
(an IEEE-754 double is an exact rational). -/
inductive Tok where
  | nat (n : Nat)
  | str (s : String)
  | txt (t : List Char)
  | rat (q : ℚ)
  deriving DecidableEq, Repr

/-- Modelled from the spec: serialization of one row — label, text, then
the length-prefixed embedding vector. -/
def encodeRow (r : Row) : List Tok :=
  [Tok.str r.source_label, Tok.txt r.text, Tok.nat r.openaiEmbeddings.length]
    ++ r.openaiEmbeddings.map Tok.rat

/-- Modelled from the spec: `df_combined.to_pickle('data/text.pkl')` —
serialize the dataset into the single container, rows in order, prefixed
by the row count. -/
def to_pickle (ds : List Row) : List Tok :=
  Tok.nat ds.length :: (ds.map encodeRow).flatten

/-- Modelled from the spec: read back a length-prefixed vector. -/
def decodeVec : Nat → List Tok → Option (Vec × List Tok)
  | 0, rest => some ([], rest)
  | n + 1, Tok.rat q :: rest =>
    (decodeVec n rest).map (fun p => (q :: p.1, p.2))
  | _ + 1, _ => none

/-- Modelled from the spec: read back one row. -/
def decodeRow : List Tok → Option (Row × List Tok)
  | Tok.str l :: Tok.txt t :: Tok.nat n :: rest =>
    (decodeVec n rest).map (fun p => (Row.mk l t p.1, p.2))
  | _ => none

/-- Modelled from the spec: read back `n` rows. -/
def decodeRows : Nat → List Tok → Option (List Row × List Tok)
  | 0, rest => some ([], rest)
  | n + 1, toks =>
    (decodeRow toks).bind
      (fun p => (decodeRows n p.2).map (fun q => (p.1 :: q.1, q.2)))

/-- Modelled from the spec: `pd.read_pickle` — deserialize the container
back into a dataset, refusing trailing garbage. -/
def read_pickle (f : List Tok) : Option (List Row) :=
  match f with
  | Tok.nat n :: rest =>
    (decodeRows n rest).bind (fun p => if p.2 = [] then some p.1 else none)
  | _ => none

/-! ### Helper lemmas: the assembler -/

lemma assemble_nil : assemble [] = [] := rfl

lemma assemble_cons (d : String × List (List Char)) (docs : List (String × List (List Char))) :
    assemble (d :: docs) = d.2.map (fun t => Record.mk d.1 t) ++ assemble docs := rfl

lemma assemble_length (docs : List (String × List (List Char))) :
    (assemble docs).length = (docs.map (fun d => d.2.length)).sum := by
  induction docs with
  | nil => rfl
  | cons d docs ih => simp [assemble_cons, ih]

lemma docOffset_zero (docs : List (String × List (List Char))) : docOffset docs 0 = 0 := rfl

lemma docOffset_cons_succ (d : String × List (List Char))
    (docs : List (String × List (List Char))) (p : Nat) :
    docOffset (d :: docs) (p + 1) = d.2.length + docOffset docs p := by
  simp [docOffset]

lemma assemble_getElem? (docs : List (String × List (List Char))) (p j : Nat)
    (d : String × List (List Char)) (t : List Char)
    (hd : docs[p]? = some d) (ht : d.2[j]? = some t) :
    (assemble docs)[docOffset docs p + j]? = some (Record.mk d.1 t) := by
  induction docs generalizing p with
  | nil => simp at hd
  | cons e docs ih =>
    cases p with
    | zero =>
      simp only [List.getElem?_cons_zero, Option.some_inj] at hd
      subst hd
      have hj : j < e.2.length := by
        by_contra hcon
        rw [List.getElem?_eq_none (Nat.le_of_not_lt hcon)] at ht
        exact Option.noConfusion ht
      rw [docOffset_zero, Nat.zero_add, assemble_cons, List.getElem?_append,
        if_pos (by simpa using hj), List.getElem?_map, ht]
      rfl
    | succ p =>
      simp only [List.getElem?_cons_succ] at hd
      rw [docOffset_cons_succ, assemble_cons, Nat.add_assoc,
        List.getElem?_append_right (by simp)]
      simpa using ih p hd

/-! ### Helper lemmas: the dataset builder -/

lemma buildDataset_spec (recs : List Record) (embs : List Vec) (ds : List Row)
    (h : buildDataset recs embs = some ds) :
    recs.length = embs.length ∧ ds.length = recs.length ∧
    ∀ i : Nat, (ds[i]?).map Row.text = (recs[i]?).map Record.text ∧
      (ds[i]?).map Row.source_label = (recs[i]?).map Record.source_label ∧
      (ds[i]?).map Row.openaiEmbeddings = embs[i]? := by
  unfold buildDataset at h
  split at h
  case isTrue hlen =>
    have hds : ds = List.zipWith (fun r v => Row.mk r.source_label r.text v) recs embs :=
      (Option.some_inj.mp h).symm
    subst hds
    refine ⟨hlen, by simp [List.length_zipWith, hlen], fun i => ?_⟩
    rw [List.getElem?_zipWith']
    by_cases hi : i < recs.length
    · have hi' : i < embs.length := hlen ▸ hi
      have h1 : recs[i]? = some recs[i] := List.getElem?_eq_getElem hi
      have h2 : embs[i]? = some embs[i] := List.getElem?_eq_getElem hi'
      rw [h1, h2]
      simp
    · have hi' : ¬ i < embs.length := fun hc => hi (hlen ▸ hc)
      have h1 : recs[i]? = none := List.getElem?_eq_none (Nat.le_of_not_lt hi)
      have h2 : embs[i]? = none := List.getElem?_eq_none (Nat.le_of_not_lt hi')
      rw [h1, h2]
      simp
  case isFalse => exact Option.noConfusion h

/-! ### Helper lemmas: the embedding client -/

lemma get_embeddings_go_spec (svc : Nat → List Char → Nat → Option Vec) (fuel : Nat)
    (ts : List (List Char)) :
    ∀ (i : Nat) (acc out : List Vec),
    (get_embeddings_go svc fuel i acc ts).1 = some out →
    ∃ vs : List Vec, out = acc ++ vs ∧ vs.length = ts.length ∧
      ∀ (k : Nat) (t : List Char), ts[k]? = some t →
        Option.map Prod.fst ((retryT (svc (i + k) t) fuel 0).1) = vs[k]? := by
  induction ts with
  | nil =>
    intro i acc out h
    simp only [get_embeddings_go, Option.some_inj] at h
    exact ⟨[], by simp [h.symm], rfl, fun k t hkt => by simp at hkt⟩
  | cons t ts ih =>
    intro i acc out h
    rw [get_embeddings_go] at h
    rcases hre : retryT (svc i t) fuel 0 with ⟨r1, c, s⟩
    rw [hre] at h
    match r1 with
    | none => exact Option.noConfusion h
    | some (v, jdx) =>
      simp only at h
      obtain ⟨vs', hout, hlen, hpos⟩ := ih (i + 1) (acc ++ [v]) out h
      refine ⟨v :: vs', by simp [hout], by simp [hlen], fun k t' hkt => ?_⟩
      cases k with
      | zero =>
        simp only [List.getElem?_cons_zero, Option.some_inj] at hkt
        subst hkt
        simp [Nat.add_zero, hre]
      | succ k =>
        simp only [List.getElem?_cons_succ] at hkt
        have harith : i + (k + 1) = (i + 1) + k := by omega
        rw [harith]
        simpa using hpos k t' hkt

lemma get_embeddings_go_acc (svc : Nat → List Char → Nat → Option Vec) (fuel : Nat)
    (ts : List (List Char)) :
    ∀ (i : Nat) (acc : List Vec),
    (get_embeddings_go svc fuel i acc ts).1
      = ((get_embeddings_go svc fuel i [] ts).1).map (fun vs => acc ++ vs) := by
  induction ts with
  | nil => intro i acc; simp [get_embeddings_go]
  | cons t ts ih =>
    intro i acc
    rw [get_embeddings_go, get_embeddings_go]
    rcases hre : retryT (svc i t) fuel 0 with ⟨r1, c, s⟩
    match r1 with
    | none => simp
    | some (v, jdx) =>
      simp only
      rw [ih (i + 1) (acc ++ [v]), ih (i + 1) ([] ++ [v]), Option.map_map]
      cases (get_embeddings_go svc fuel (i + 1) [] ts).1 with
      | none => rfl
      | some vs => simp

lemma get_embeddings_go_take (svc : Nat → List Char → Nat → Option Vec) (fuel : Nat)
    (ts : List (List Char)) :
    ∀ (n i : Nat) (acc out : List Vec),
    (get_embeddings_go svc fuel i acc ts).1 = some out →
    (get_embeddings_go svc fuel i acc (ts.take n)).1 = some (out.take (acc.length + n)) := by
  induction ts with
  | nil =>
    intro n i acc out h
    simp only [get_embeddings_go, Option.some_inj] at h
    subst h
    have hacc : acc.take (acc.length + n) = acc := List.take_of_length_le (by omega)
    simp [get_embeddings_go, hacc]
  | cons t ts ih =>
    intro n i acc out h
    cases n with
    | zero =>
      obtain ⟨vs, hout, -, -⟩ := get_embeddings_go_spec svc fuel (t :: ts) i acc out h
      subst hout
      simp [get_embeddings_go, List.take_left]
    | succ n =>
      rw [get_embeddings_go] at h
      rw [List.take_succ_cons, get_embeddings_go]
      rcases hre : retryT (svc i t) fuel 0 with ⟨r1, c, s⟩
      rw [hre] at h
      match r1 with
      | none => exact Option.noConfusion h
      | some (v, jdx) =>
        simp only at h ⊢
        have := ih n (i + 1) (acc ++ [v]) out h
        rw [this]
        congr 1
        simp
        omega

lemma retryT_firstSuccess (svc1 : Nat → Option Vec) (v : Vec) (k : Nat)
    (hfail : ∀ m, m < k → svc1 m = none) (hsucc : svc1 k = some v) :
    ∀ (fuel j : Nat), j ≤ k → k + 1 - j ≤ fuel →
      retryT svc1 fuel j = (some (v, k), k + 1 - j, 5 * (k - j)) := by
  intro fuel
  induction fuel with
  | zero => intro j hj hf; omega
  | succ fuel ih =>
    intro j hj hf
    rcases Nat.lt_or_ge j k with hjk | hjk
    · rw [retryT, hfail j hjk, ih (j + 1) (by omega) (by omega)]
      simp only [Prod.mk.injEq]
      exact ⟨trivial, by omega, by omega⟩
    · have hjk' : j = k := Nat.le_antisymm hj hjk
      subst hjk'
      rw [retryT, hsucc]
      simp only [Prod.mk.injEq]
      exact ⟨trivial, by omega, by omega⟩

/-! ### Helper lemmas: the corpus loader -/

lemma readlines_flatten (s : List Char) : (readlines s).flatten = s := by
  induction s with
  | nil => rfl
  | cons c cs ih =>
    by_cases hc : c = '\n'
    · subst hc
      rw [readlines, if_pos rfl]
      simp [ih]
    · rw [readlines, if_neg hc]
      cases hrl : readlines cs with
      | nil =>
        rw [hrl] at ih
        have hcs : cs = [] := by simpa using ih.symm
        subst hcs
        rfl
      | cons l ls =>
        rw [hrl] at ih
        simp only [List.flatten_cons] at ih ⊢
        rw [List.cons_append, ih]

lemma readlines_eq_nil_iff (s : List Char) : readlines s = [] ↔ s = [] := by
  constructor
  · intro h
    have hf := readlines_flatten s
    rw [h] at hf
    exact hf.symm
  · intro h
    subst h
    rfl

lemma readlines_mem_ne_nil (s : List Char) : ∀ l ∈ readlines s, l ≠ [] := by
  induction s with
  | nil => intro l hl; simp [readlines] at hl
  | cons c cs ih =>
    intro l hl
    by_cases hc : c = '\n'
    · subst hc
      rw [readlines, if_pos rfl] at hl
      rcases List.mem_cons.mp hl with h | h
      · subst h; simp
      · exact ih l h
    · rw [readlines, if_neg hc] at hl
      cases hrl : readlines cs with
      | nil =>
        rw [hrl] at hl
        simp only [List.mem_singleton] at hl
        subst hl
        simp
      | cons l0 ls =>
        rw [hrl] at hl
        rcases List.mem_cons.mp hl with h | h
        · subst h; simp
        · exact ih l (by rw [hrl]; exact List.mem_cons_of_mem _ h)

lemma readlines_newline_last (s : List Char) :
    ∀ l ∈ readlines s, ∀ (i : Nat) (h : i < l.length),
      l.get ⟨i, h⟩ = '\n' → i + 1 = l.length := by
  induction s with
  | nil => intro l hl; simp [readlines] at hl
  | cons c cs ih =>
    intro l hl i hi hnl
    by_cases hc : c = '\n'
    · subst hc
      rw [readlines, if_pos rfl] at hl
      rcases List.mem_cons.mp hl with h | h
      · subst h
        have hi0 : i = 0 := Nat.lt_one_iff.mp hi
        subst hi0
        rfl
      · exact ih l h i hi hnl
    · rw [readlines, if_neg hc] at hl
      cases hrl : readlines cs with
      | nil =>
        rw [hrl] at hl
        simp only [List.mem_singleton] at hl
        subst hl
        have hi0 : i = 0 := Nat.lt_one_iff.mp hi
        subst hi0
        exact absurd hnl hc
      | cons l0 ls =>
        rw [hrl] at hl
        rcases List.mem_cons.mp hl with h | h
        · subst h
          cases i with
          | zero => exact absurd hnl hc
          | succ i =>
            have hi' : i < l0.length := by simpa using hi
            have hnl' : l0.get ⟨i, hi'⟩ = '\n' := hnl
            have hmem : l0 ∈ readlines cs := by
              rw [hrl]; exact List.mem_cons_self _ _
            have hend := ih l0 hmem i hi' hnl'
            simp only [List.length_cons]
            omega
        · exact ih l (by rw [hrl]; exact List.mem_cons_of_mem _ h) i hi hnl

lemma readlines_inner_newline (s : List Char) :
    ∀ i : Nat, i + 1 < (readlines s).length →
      ∃ l, (readlines s)[i]? = some l ∧ l.getLast? = some '\n' := by
  induction s with
  | nil => intro i hi; simp [readlines] at hi
  | cons c cs ih =>
    intro i hi
    by_cases hc : c = '\n'
    · subst hc
      rw [readlines, if_pos rfl] at hi ⊢
      cases i with
      | zero => exact ⟨['\n'], by simp, by simp⟩
      | succ i =>
        have hi' : i + 1 < (readlines cs).length := by simpa using hi
        obtain ⟨l, h1, h2⟩ := ih i hi'
        exact ⟨l, by simpa using h1, h2⟩
    · rw [readlines, if_neg hc] at hi ⊢
      cases hrl : readlines cs with
      | nil =>
        rw [hrl] at hi
        simp at hi
      | cons l0 ls =>
        rw [hrl] at hi
        cases i with
        | zero =>
          have hls : 0 < ls.length := by simpa using hi
          have h0 : 0 + 1 < (readlines cs).length := by
            rw [hrl]; simpa using hls
          obtain ⟨l, h1, h2⟩ := ih 0 h0
          rw [hrl] at h1
          simp only [List.getElem?_cons_zero, Option.some_inj] at h1
          subst h1
          have hne : l0 ≠ [] := readlines_mem_ne_nil cs l0
            (by rw [hrl]; exact List.mem_cons_self _ _)
          cases l0 with
          | nil => exact absurd rfl hne
          | cons x xs =>
            exact ⟨c :: x :: xs, by simp, by rw [List.getLast?_cons_cons]; exact h2⟩
        | succ i =>
          have hi' : (i + 1) + 1 < (readlines cs).length := by
            rw [hrl]; simpa using hi
          obtain ⟨l, h1, h2⟩ := ih (i + 1) hi'
          rw [hrl] at h1
          simp only [List.getElem?_cons_succ] at h1
          exact ⟨l, by simpa using h1, h2⟩

lemma readlines_getLast (s : List Char) :
    s ≠ [] →
    ∃ l, (readlines s).getLast? = some l ∧
      (l.getLast? = some '\n' ↔ s.getLast? = some '\n') := by
  induction s with
  | nil => intro hs; exact absurd rfl hs
  | cons c cs ih =>
    intro _
    by_cases hcs : cs = []
    · subst hcs
      by_cases hc : c = '\n'
      · subst hc
        exact ⟨['\n'], by simp [readlines], by simp⟩
      · rw [readlines, if_neg hc]
        exact ⟨[c], by simp [readlines], by simp⟩
    · obtain ⟨l, h1, h2⟩ := ih hcs
      have hrlne : readlines cs ≠ [] := fun h => hcs ((readlines_eq_nil_iff cs).mp h)
      have hlast : (c :: cs).getLast? = cs.getLast? := by
        cases cs with
        | nil => exact absurd rfl hcs
        | cons d ds => rw [List.getLast?_cons_cons]
      by_cases hc : c = '\n'
      · subst hc
        rw [readlines, if_pos rfl]
        refine ⟨l, ?_, by rw [hlast]; exact h2⟩
        cases hrl : readlines cs with
        | nil => exact absurd hrl hrlne
        | cons l0 ls =>
          rw [List.getLast?_cons_cons, ← hrl, h1]
      · rw [readlines, if_neg hc]
        cases hrl : readlines cs with
        | nil => exact absurd hrl hrlne
        | cons l0 ls =>
          cases ls with
          | nil =>
            rw [hrl] at h1
            simp only [List.getLast?_singleton, Option.some_inj] at h1
            have hl0 : l0 ≠ [] := readlines_mem_ne_nil cs l0
              (by rw [hrl]; exact List.mem_cons_self _ _)
            cases l0 with
            | nil => exact absurd rfl hl0
            | cons x xs =>
              refine ⟨c :: x :: xs, by simp, ?_⟩
              rw [List.getLast?_cons_cons, hlast, h1]
              exact h2
          | cons l1 ls' =>
            rw [hrl] at h1
            rw [List.getLast?_cons_cons] at h1
            refine ⟨l, ?_, by rw [hlast]; exact h2⟩
            rw [List.getLast?_cons_cons]
            exact h1

lemma assemble_loadDocs_mem (files : List (String × List Char)) (r : Record)
    (hr : r ∈ assemble (loadDocs files)) :
    ∃ f ∈ files, r.source_label = f.1 ∧ r.text ∈ readlines f.2 := by
  simp only [assemble, loadDocs, read_file, List.mem_flatten, List.mem_map] at hr
  obtain ⟨lr, ⟨d, ⟨f, hf, hfd⟩, hd⟩, hrlr⟩ := hr
  subst hfd
  subst hd
  simp only [List.mem_map] at hrlr
  obtain ⟨t, ht, hrt⟩ := hrlr
  subst hrt
  exact ⟨f, hf, rfl, ht⟩

/-! ### Helper lemmas: the persistence container -/

lemma decodeVec_encode (v : Vec) (rest : List Tok) :
    decodeVec v.length (v.map Tok.rat ++ rest) = some (v, rest) := by
  induction v with
  | nil => rfl
  | cons q v ih => simp [decodeVec, ih]

lemma decodeRow_encode (r : Row) (rest : List Tok) :
    decodeRow (encodeRow r ++ rest) = some (r, rest) := by
  cases r with
  | mk label text emb =>
    simp [encodeRow, decodeRow, decodeVec_encode, List.append_assoc]

lemma decodeRows_encode (rows : List Row) (rest : List Tok) :
    decodeRows rows.length ((rows.map encodeRow).flatten ++ rest) = some (rows, rest) := by
  induction rows generalizing rest with
  | nil => rfl
  | cons r rows ih =>
    simp only [List.map_cons, List.flatten_cons, List.length_cons, List.append_assoc]
    rw [decodeRows, decodeRow_encode]
    simp [ih]

/-! ### The claims -/

/-- C1: Order invariant — for every successful run of the pipeline and every
index `i`, the text and the source label of the dataset row at position `i`
equal those of the assembled record at position `i`; and the dataset record
at the offset of loaded document `p` plus line index `j` is line `j` of
document `p`, tagged with that document's source label (concatenation order
of documents, then line order within each document). -/
theorem C1_order_invariant (svc : Nat → List Char → Nat → Option Vec) (fuel : Nat)
    (files : List (String × List Char)) (ds : List Row)
    (h : pipelineDataset svc fuel files = some ds) :
    (∀ i : Nat,
      (ds[i]?).map Row.text = ((assemble (loadDocs files))[i]?).map Record.text ∧
      (ds[i]?).map Row.source_label
        = ((assemble (loadDocs files))[i]?).map Record.source_label) ∧
    (∀ (p j : Nat) (f : String × List Char) (t : List Char),
      files[p]? = some f → (read_file f.2)[j]? = some t →
      (ds[docOffset (loadDocs files) p + j]?).map Row.text = some t ∧
      (ds[docOffset (loadDocs files) p + j]?).map Row.source_label = some f.1) := by
  unfold pipelineDataset at h
  cases hemb : pipelineEmbeds svc fuel files with
  | none => rw [hemb] at h; exact Option.noConfusion h
  | some embs =>
    rw [hemb] at h
    simp only [Option.some_bind] at h
    obtain ⟨hlen, hdslen, hproj⟩ := buildDataset_spec _ _ _ h
    refine ⟨fun i => ⟨(hproj i).1, (hproj i).2.1⟩, ?_⟩
    intro p j f t hf ht
    have hd : (loadDocs files)[p]? = some (f.1, read_file f.2) := by
      rw [loadDocs, List.getElem?_map, hf]
      rfl
    have hget := assemble_getElem? (loadDocs files) p j (f.1, read_file f.2) t hd ht
    constructor
    · rw [(hproj _).1, hget]
      rfl
    · rw [(hproj _).2.1, hget]
      rfl

/-- C1 witness: a concrete one-file run where the dataset's first row has
the first assembled record's text. -/
theorem C1_order_invariant_witness :
    (([Row.mk "goats" ['a', '\n'] [(1 : ℚ)], Row.mk "goats" ['b'] [(1 : ℚ)]])[0]?).map Row.text
      = ((assemble (loadDocs [("goats", ['a', '\n', 'b'])]))[0]?).map Record.text :=
  ((C1_order_invariant (fun _ _ _ => some [(1 : ℚ)]) 1 [("goats", ['a', '\n', 'b'])]
      [Row.mk "goats" ['a', '\n'] [(1 : ℚ)], Row.mk "goats" ['b'] [(1 : ℚ)]]
      (by decide)).1 0).1

/-- C2: Length invariant — in every successful run, the assembled record
sequence, the embedding sequence returned by the client, and the final
dataset all have the same length. -/
theorem C2_length_invariant (svc : Nat → List Char → Nat → Option Vec) (fuel : Nat)
    (files : List (String × List Char)) (ds : List Row)
    (h : pipelineDataset svc fuel files = some ds) :
    ∃ embs, pipelineEmbeds svc fuel files = some embs ∧
      (assemble (loadDocs files)).length = embs.length ∧
      embs.length = ds.length := by
  unfold pipelineDataset at h
  cases hemb : pipelineEmbeds svc fuel files with
  | none => rw [hemb] at h; exact Option.noConfusion h
  | some embs =>
    rw [hemb] at h
    simp only [Option.some_bind] at h
    obtain ⟨hlen, hdslen, -⟩ := buildDataset_spec _ _ _ h
    exact ⟨embs, rfl, hlen, by omega⟩

/-- C2 witness: the length invariant on a concrete one-file run. -/
theorem C2_length_invariant_witness :
    ∃ embs, pipelineEmbeds (fun _ _ _ => some [(1 : ℚ)]) 1 [("goats", ['a', '\n', 'b'])]
        = some embs ∧
      (assemble (loadDocs [("goats", ['a', '\n', 'b'])])).length = embs.length ∧
      embs.length
        = ([Row.mk "goats" ['a', '\n'] [(1 : ℚ)], Row.mk "goats" ['b'] [(1 : ℚ)]]).length :=
  C2_length_invariant (fun _ _ _ => some [(1 : ℚ)]) 1 [("goats", ['a', '\n', 'b'])]
    [Row.mk "goats" ['a', '\n'] [(1 : ℚ)], Row.mk "goats" ['b'] [(1 : ℚ)]] (by decide)

/-- C3: Embedding client positional guarantee — if `get_embeddings` returns,
the output has the same length as the input, and the vector at position `i`
is the vector of the first successful service attempt for the record at
position `i`. -/
theorem C3_embedding_client_positional (svc : Nat → List Char → Nat → Option Vec)
    (fuel : Nat) (texts : List (List Char)) (out : List Vec)
    (h : (get_embeddings svc fuel texts).1 = some out) :
    out.length = texts.length ∧
    ∀ (i : Nat) (t : List Char), texts[i]? = some t →
      Option.map Prod.fst ((retryT (svc i t) fuel 0).1) = out[i]? := by
  obtain ⟨vs, hout, hlen, hpos⟩ := get_embeddings_go_spec svc fuel texts 0 [] out h
  simp only [List.nil_append] at hout
  subst hout
  exact ⟨hlen, fun i t ht => by simpa using hpos i t ht⟩

/-- C3 witness: the output length matches on a concrete call. -/
theorem C3_embedding_client_positional_witness :
    ([[(1 : ℚ)]] : List Vec).length = ([['a']] : List (List Char)).length :=
  (C3_embedding_client_positional (fun _ _ _ => some [(1 : ℚ)]) 1 [['a']] [[(1 : ℚ)]]
    (by decide)).1

/-- C4: Retry termination — against a stub that fails exactly `k` times and
then succeeds, the retry loop returns the correct vector with exactly `k+1`
service calls (none beyond the `(k+1)`-th) and `5k` seconds of fixed
5-second delays, resubmitting the same record throughout; and
`get_embeddings` on that single record returns that vector with the same
call count and delay. -/
theorem C4_retry_termination (t : List Char) (k : Nat) (v : Vec) (fuel : Nat)
    (hfuel : k + 1 ≤ fuel) :
    retryT (fun j => if j < k then none else some v) fuel 0
      = (some (v, k), k + 1, 5 * k) ∧
    get_embeddings (fun _ _ j => if j < k then none else some v) fuel [t]
      = (some [v], k + 1, 5 * k) := by
  have hret := retryT_firstSuccess (fun j => if j < k then none else some v) v k
    (fun m hm => if_pos hm) (by simp) fuel 0 (Nat.zero_le k) (by omega)
  simp only [Nat.sub_zero] at hret
  refine ⟨hret, ?_⟩
  simp only [get_embeddings, get_embeddings_go]
  rw [hret]
  simp [get_embeddings_go]

/-- C4 witness: two failures then success — three calls, ten seconds. -/
theorem C4_retry_termination_witness :
    retryT (fun j => if j < 2 then none else some [(1 : ℚ)]) 3 0
      = (some ([(1 : ℚ)], 2), 2 + 1, 5 * 2) ∧
    get_embeddings (fun _ _ j => if j < 2 then none else some [(1 : ℚ)]) 3 [['a']]
      = (some [[(1 : ℚ)]], 2 + 1, 5 * 2) :=
  C4_retry_termination ['a'] 2 [(1 : ℚ)] 3 (by decide)

/-- C5: Dataset builder structural error — merging sequences of different
lengths fails (no dataset is produced), and every successful merge yields a
dataset exactly as long as both inputs (nothing truncated or padded). -/
theorem C5_builder_structural_error (recs : List Record) (embs : List Vec)
    (hne : recs.length ≠ embs.length) :
    buildDataset recs embs = none ∧
    ∀ (recs' : List Record) (embs' : List Vec) (ds : List Row),
      buildDataset recs' embs' = some ds →
      ds.length = recs'.length ∧ ds.length = embs'.length := by
  refine ⟨by rw [buildDataset, if_neg hne], ?_⟩
  intro recs' embs' ds h
  obtain ⟨hlen, hdslen, -⟩ := buildDataset_spec _ _ _ h
  omega

/-- C5 witness: one record and no vectors is refused. -/
theorem C5_builder_structural_error_witness :
    buildDataset [Record.mk "goats" ['a']] [] = none :=
  (C5_builder_structural_error [Record.mk "goats" ['a']] [] (by decide)).1

/-- C6: Fatal on missing configuration — when the `.env` file fails to load
or the credential is absent, the run ends in an error and the service-call
counter stays at zero. -/
theorem C6_fatal_on_missing_config (cfg : Config) (svc : Nat → List Char → Nat → Option Vec)
    (fuel : Nat) (files : List (String × List Char))
    (h : cfg.dotenv_loaded = false ∨ ¬ "OPENAI_API_KEY" ∈ cfg.env) :
    (∃ e, (runPipeline cfg svc fuel files).1 = Except.error e) ∧
    (runPipeline cfg svc fuel files).2 = 0 := by
  have herr : ∃ e, checkConfig cfg = Except.error e := by
    rcases h with h | h
    · exact ⟨_, by rw [checkConfig, if_pos h]⟩
    · by_cases hd : cfg.dotenv_loaded = false
      · exact ⟨_, by rw [checkConfig, if_pos hd]⟩
      · have hcond : missingVars cfg ≠ [] := by simp [missingVars, envVars, h]
        exact ⟨_, by rw [checkConfig, if_neg hd, if_pos hcond]⟩
  obtain ⟨e, he⟩ := herr
  rw [runPipeline, he]
  exact ⟨⟨e, rfl⟩, rfl⟩

/-- C6 witness: a loaded `.env` but empty environment aborts with zero calls. -/
theorem C6_fatal_on_missing_config_witness :
    (∃ e, (runPipeline (Config.mk true []) (fun _ _ _ => none) 0 []).1 = Except.error e) ∧
    (runPipeline (Config.mk true []) (fun _ _ _ => none) 0 []).2 = 0 :=
  C6_fatal_on_missing_config (Config.mk true []) (fun _ _ _ => none) 0 []
    (Or.inr (by simp))

/-- C7: Assembler correctness — the assembled sequence has the summed
length of the documents, the record at document offset `p` plus `j` is line
`j` of document `p` tagged with its source label (no reordering, filtering,
or deduplication), and every source label survives unchanged into the final
dataset of every successful run. -/
theorem C7_assembler_correctness (docs : List (String × List (List Char))) :
    (assemble docs).length = (docs.map (fun d => d.2.length)).sum ∧
    (∀ (p j : Nat) (d : String × List (List Char)) (t : List Char),
      docs[p]? = some d → d.2[j]? = some t →
      (assemble docs)[docOffset docs p + j]? = some (Record.mk d.1 t)) ∧
    (∀ (svc : Nat → List Char → Nat → Option Vec) (fuel : Nat)
      (files : List (String × List Char)) (ds : List Row),
      pipelineDataset svc fuel files = some ds →
      ∀ i : Nat, (ds[i]?).map Row.source_label
        = ((assemble (loadDocs files))[i]?).map Record.source_label) := by
  refine ⟨assemble_length docs,
    fun p j d t hd ht => assemble_getElem? docs p j d t hd ht, ?_⟩
  intro svc fuel files ds h i
  unfold pipelineDataset at h
  cases hemb : pipelineEmbeds svc fuel files with
  | none => rw [hemb] at h; exact Option.noConfusion h
  | some embs =>
    rw [hemb] at h
    simp only [Option.some_bind] at h
    exact ((buildDataset_spec _ _ _ h).2.2 i).2.1

/-- C8: Round-trip persistence — writing any dataset to the container and
reading it back returns the dataset unchanged, every row and every exact
embedding value in order. -/
theorem C8_roundtrip_persistence (ds : List Row) :
    read_pickle (to_pickle ds) = some ds := by
  have h := decodeRows_encode ds []
  rw [List.append_nil] at h
  simp [to_pickle, read_pickle, h]

/-- C9: Line terminators retained — `readlines` concatenates back to the
original contents (nothing stripped), every produced line is nonempty, a
newline occurs only as a line's last character, every line but the last
ends with a newline, the last line ends with a newline exactly when the
file does, and every assembled record's text is one of these raw lines,
tagged with its file's label. -/
theorem C9_line_terminators_retained (s : List Char) :
    (readlines s).flatten = s ∧
    (∀ l ∈ readlines s, l ≠ []) ∧
    (∀ l ∈ readlines s, ∀ (i : Nat) (h : i < l.length),
      l.get ⟨i, h⟩ = '\n' → i + 1 = l.length) ∧
    (∀ i : Nat, i + 1 < (readlines s).length →
      ∃ l, (readlines s)[i]? = some l ∧ l.getLast? = some '\n') ∧
    (s ≠ [] → ∃ l, (readlines s).getLast? = some l ∧
      (l.getLast? = some '\n' ↔ s.getLast? = some '\n')) ∧
    (∀ (files : List (String × List Char)) (r : Record),
      r ∈ assemble (loadDocs files) →
      ∃ f ∈ files, r.source_label = f.1 ∧ r.text ∈ readlines f.2) :=
  ⟨readlines_flatten s, readlines_mem_ne_nil s, readlines_newline_last s,
    readlines_inner_newline s, readlines_getLast s,
    fun files r hr => assemble_loadDocs_mem files r hr⟩

/-- C10: Per-record retry atomicity — whatever the accumulator held before,
a successful run only ever appends to it (a failed attempt appends
nothing); the run on the first `n` records yields exactly the first `n`
output vectors in order; and each output vector is the one from its
record's first successful attempt. -/
theorem C10_retry_atomicity (svc : Nat → List Char → Nat → Option Vec) (fuel : Nat)
    (texts : List (List Char)) (out : List Vec)
    (h : (get_embeddings svc fuel texts).1 = some out) :
    (∀ (i : Nat) (acc : List Vec) (ts : List (List Char)) (r : List Vec),
      (get_embeddings_go svc fuel i acc ts).1 = some r →
      ∃ vs, r = acc ++ vs) ∧
    (∀ n : Nat, (get_embeddings svc fuel (texts.take n)).1 = some (out.take n)) ∧
    (∀ (i : Nat) (t : List Char), texts[i]? = some t →
      Option.map Prod.fst ((retryT (svc i t) fuel 0).1) = out[i]?) := by
  refine ⟨?_, ?_, ?_⟩
  · intro i acc ts r hr
    obtain ⟨vs, hvs, -, -⟩ := get_embeddings_go_spec svc fuel ts i acc r hr
    exact ⟨vs, hvs⟩
  · intro n
    have htk := get_embeddings_go_take svc fuel texts n 0 [] out h
    simpa [get_embeddings] using htk
  · intro i t ht
    obtain ⟨vs, hout, hlen, hpos⟩ := get_embeddings_go_spec svc fuel texts 0 [] out h
    simp only [List.nil_append] at hout
    subst hout
    simpa using hpos i t ht

/-- C10 witness: taking the first record of a concrete two-record run. -/
theorem C10_retry_atomicity_witness :
    (get_embeddings (fun _ _ _ => some [(1 : ℚ)]) 1 ([['a'], ['b']].take 1)).1
      = some ([[(1 : ℚ)], [(1 : ℚ)]].take 1) :=
  ((C10_retry_atomicity (fun _ _ _ => some [(1 : ℚ)]) 1 [['a'], ['b']]
      [[(1 : ℚ)], [(1 : ℚ)]] (by decide)).2.1) 1

end GoatsVGravity
